import Mathlib

/-!
Verification development for the fixmd batch markdown fixer
(source: src/main.go).

Strings from the Go program are modelled as `List Char`; machine paths
use the separator character of Unix builds of the tool.  The filesystem
maps each path to an optional content, and each fallible system
call (directory creation, file write, the remote Gemini call) is an
oracle parameter, so that every run of the program corresponds to one
choice of oracles.  Durations are modelled as exact rationals measured
in seconds; `os.WriteFile` is modelled as an atomic operation that
either fully replaces the target content or leaves the filesystem
unchanged.
-/

/-- Path separator of the tool on Unix (`filepath.Separator`). -/
def pathSep : Char := '/'

/-- Lower-casing of one character, modelling `strings.ToLower`
character-wise on ASCII input. -/
def lowerChar (c : Char) : Char := c.toLower

/-- Suffix required of processed files, `".md"` (compared on the
lower-cased name, as in `strings.HasSuffix(strings.ToLower(name), ".md")`). -/
def mdSuffix : List Char := ['.', 'm', 'd']

/-- Suffix appended to every backup path, `".bak"` (main.go line 374). -/
def bakSuffix : List Char := ['.', 'b', 'a', 'k']

/-- Test from main.go lines 234 and 314: the lower-cased name ends in
`".md"`. -/
def isMdPath (p : List Char) : Bool := mdSuffix.isSuffixOf (p.map lowerChar)

/-- Last path component, modelling `filepath.Base` on a clean path that
contains a separator. -/
def baseOf (p : List Char) : List Char :=
  (p.reverse.takeWhile (fun c => c ≠ pathSep)).reverse

/-- Parent directory, modelling `filepath.Dir` on a clean absolute path.
For a file directly under the root the result is the root itself. -/
def dirOf (p : List Char) : List Char :=
  let r := p.reverse.dropWhile (fun c => c ≠ pathSep)
  if r = [pathSep] then [pathSep] else r.reverse.dropLast

/-- Joining of two clean path fragments, modelling `filepath.Join` on
inputs free of dot segments: empty elements are dropped and a duplicate
separator at the seam is collapsed, as `filepath.Clean` does. -/
def goJoin (a b : List Char) : List Char :=
  if a = [] then b
  else if b = [] then a
  else if b.head? = some pathSep then a ++ b
  else a ++ pathSep :: b

/-- Absolutisation against the working directory, modelling
`filepath.Abs` on clean inputs. -/
def goAbs (workDir p : List Char) : List Char :=
  if p.head? = some pathSep then p else goJoin workDir p

/-- Flattening of an absolute path that lies outside the working
directory, transcribing main.go lines 364 to 370: every separator is
replaced by an underscore, then a leading slash or backslash is
stripped (after the replacement no slash can remain, so that strip is
dead code on Unix, and it is kept here verbatim). -/
def flattenOutside (absFilePath : List Char) : List Char :=
  let r := absFilePath.map (fun c => if c = pathSep then '_' else c)
  match r with
  | [] => []
  | c :: rest => if c = pathSep ∨ c = '\\' then rest else c :: rest

/-- Backup destination computed by `prepareFileForProcessing`
(main.go lines 342 to 374): branch one when the parent directory equals
the working directory, branch two when the working directory is a
string prefix of the parent directory, branch three (flattening)
otherwise. -/
def prepareBackupPath (workDir filePath backupBaseDir : List Char) : List Char :=
  let absFilePath := goAbs workDir filePath
  let fileDir := dirOf absFilePath
  let absWorkDir := workDir
  let relPath :=
    if fileDir = absWorkDir then baseOf filePath
    else if absWorkDir.isPrefixOf fileDir then
      goJoin (fileDir.drop (absWorkDir.length + 1)) (baseOf filePath)
    else flattenOutside absFilePath
  goJoin backupBaseDir (relPath ++ bakSuffix)

/-- Backup destination as the specification words it: if the file
resides under the working directory (its parent equals the working
directory, or extends it past a separator), the backup path is the
backup root joined with the path relative to the working directory plus
the fixed suffix; otherwise the absolute path is flattened with the
filler character. -/
def specBackupPath (workDir filePath backupBaseDir : List Char) : List Char :=
  let absFilePath := goAbs workDir filePath
  let fileDir := dirOf absFilePath
  let relPath :=
    if fileDir = workDir ∨ (workDir ++ [pathSep]).isPrefixOf fileDir then
      absFilePath.drop (workDir.length + 1)
    else flattenOutside absFilePath
  goJoin backupBaseDir (relPath ++ bakSuffix)

/-- Filesystem content map: a path either holds a byte string or is
absent. -/
def FsMap : Type := List Char → Option (List Char)

/-- Overwriting one path of the filesystem, modelling a successful
atomic `os.WriteFile`. -/
def updateFs (fs : FsMap) (p v : List Char) : FsMap :=
  fun q => if q = p then some v else fs q

/-- One unit of work, transcribing the `FileToProcess` struct of
main.go lines 62 to 66. -/
structure FileToProcess where
  path : List Char
  content : List Char
  backupPath : List Char
deriving DecidableEq

/-- Error text of main.go line 388; the offending source path is
appended (the oracle model omits the trailing cause text). -/
def errBackupDirMsg : List Char :=
  "error creating backup directory structure for ".toList

/-- Error text of main.go line 393. -/
def errBackupFileMsg : List Char :=
  "error creating backup file for ".toList

/-- Sequential backup phase, transcribing `backupAllFiles`
(main.go lines 383 to 401).  `mkdirOk` and `writeOk` are the success
oracles of `os.MkdirAll` and `os.WriteFile`.  The result carries the
filesystem after the phase, the list of backup paths actually written
in order, and the error of the first failing task if any; the loop
stops at the first failure, leaving earlier backups in place. -/
def backupAllFiles (mkdirOk writeOk : List Char → Bool) (fs : FsMap) :
    List FileToProcess → FsMap × List (List Char) × Option (List Char)
  | [] => (fs, [], none)
  | t :: rest =>
    if mkdirOk (dirOf t.backupPath) = false then
      (fs, [], some (errBackupDirMsg ++ t.path))
    else if writeOk t.backupPath = false then
      (fs, [], some (errBackupFileMsg ++ t.path))
    else
      let out := backupAllFiles mkdirOk writeOk (updateFs fs t.backupPath t.content) rest
      (out.1, t.backupPath :: out.2.1, out.2.2)

/-- Retry budget `MaxRetries` of main.go line 24. -/
def MaxRetries : Nat := 5

/-- Initial backoff in seconds, `InitialBackoff` of main.go line 25. -/
def InitialBackoffSec : ℚ := 1

/-- Backoff ceiling in seconds, `MaxBackoff` of main.go line 26. -/
def MaxBackoffSec : ℚ := 30

/-- Concurrency ceiling `MaxConcurrent` of main.go line 27. -/
def MaxConcurrent : Nat := 3

/-- Capped exponential backoff in seconds for a failed attempt,
transcribing main.go lines 433 to 436. -/
def backoffSecondsOf (attempt : Nat) : ℚ :=
  if InitialBackoffSec * 2 ^ attempt > MaxBackoffSec then MaxBackoffSec
  else InitialBackoffSec * 2 ^ attempt

/-- Jitter drawn from one uniform sample `u` of `rand.Float64()`,
transcribing `rand.Float64()*0.4 - 0.2` of main.go line 439. -/
def jitterOf (u : ℚ) : ℚ := u * (2 / 5) - 1 / 5

/-- Slept delay after failed attempt `attempt`, transcribing
main.go line 440: the capped backoff scaled by one plus the jitter. -/
def backoffWithJitter (attempt : Nat) (u : ℚ) : ℚ :=
  backoffSecondsOf attempt * (1 + jitterOf u)

/-- Error prefix of main.go line 446. -/
def maxRetriesMsg : List Char := "max retries exceeded: ".toList

/-- Observable outcome of one `processWithGeminiRetry` invocation:
returned string, returned error, number of underlying calls made, and
the sequence of slept delays in seconds. -/
structure RetryResult where
  result : List Char
  err : Option (List Char)
  calls : Nat
  sleeps : List ℚ
deriving DecidableEq

/-- Loop body of `processWithGeminiRetry` (main.go lines 424 to 444).
`call` maps the attempt index to the outcome of `processWithGemini`,
`u` maps it to the uniform jitter sample of that iteration; `fuel` is
the number of loop iterations still allowed, kept equal to
`MaxRetries - attempt` by the callers, and `lastErr` is the `lastErr`
variable.  A failed attempt always sleeps before the next iteration
test, also when the budget is exhausted. -/
def retryAux (call : Nat → Except (List Char) (List Char)) (u : Nat → ℚ) :
    Nat → Nat → List Char → RetryResult
  | 0, _, lastErr =>
    { result := [], err := some (maxRetriesMsg ++ lastErr), calls := 0, sleeps := [] }
  | fuel + 1, attempt, _ =>
    match call attempt with
    | .ok r => { result := r, err := none, calls := 1, sleeps := [] }
    | .error e =>
      let rest := retryAux call u fuel (attempt + 1) e
      { result := rest.result, err := rest.err, calls := rest.calls + 1,
        sleeps := backoffWithJitter attempt (u attempt) :: rest.sleeps }

/-- Retrying transform client `processWithGeminiRetry`
(main.go lines 420 to 447). -/
def processWithGeminiRetry (call : Nat → Except (List Char) (List Char))
    (u : Nat → ℚ) : RetryResult :=
  retryAux call u MaxRetries 0 []

/-- Worker body `processFileContent` (main.go lines 403 to 418): run the
retrying transform on the captured content, and only on success write
the result back to the source path.  `call` and `u` are the per-content
oracles of the remote call and the jitter, `writeOk` the success oracle
of the write-back.  The result is the success flag, the filesystem
after the task, and the list of source paths written. -/
def processFileContent (call : List Char → Nat → Except (List Char) (List Char))
    (u : List Char → Nat → ℚ) (writeOk : List Char → Bool) (fs : FsMap)
    (t : FileToProcess) : Bool × FsMap × List (List Char) :=
  let r := processWithGeminiRetry (call t.content) (u t.content)
  match r.err with
  | some _ => (false, fs, [])
  | none =>
    if writeOk t.path then (true, updateFs fs t.path r.result, [t.path])
    else (false, fs, [])

/-- Processing phase over all tasks.  The Go program runs the tasks in
goroutines; per-task effects touch only that task, so the phase is
modelled as a fold.  The result carries the filesystem, the
concatenated source writes, and the success and failure counts. -/
def processAll (call : List Char → Nat → Except (List Char) (List Char))
    (u : List Char → Nat → ℚ) (writeOk : List Char → Bool) (fs : FsMap) :
    List FileToProcess → FsMap × List (List Char) × Nat × Nat
  | [] => (fs, [], 0, 0)
  | t :: rest =>
    let step := processFileContent call u writeOk fs t
    let out := processAll call u writeOk step.2.1 rest
    (out.1, step.2.2 ++ out.2.1,
      out.2.2.1 + (if step.1 then 1 else 0),
      out.2.2.2 + (if step.1 then 0 else 1))

/-- Two-phase batch of main.go lines 252 to 292: backup every task
first; a backup failure exits with code 1 before any transform or
write-back, otherwise the processing phase runs and the exit code is 0
regardless of per-file failures.  The result is the exit code, the
filesystem, the backup writes and the source writes. -/
def runBatch (mkdirOk writeBakOk : List Char → Bool)
    (call : List Char → Nat → Except (List Char) (List Char))
    (u : List Char → Nat → ℚ) (writeOk : List Char → Bool) (fs : FsMap)
    (tasks : List FileToProcess) :
    Nat × FsMap × List (List Char) × List (List Char) :=
  let bak := backupAllFiles mkdirOk writeBakOk fs tasks
  match bak.2.2 with
  | some _ => (1, bak.1, bak.2.1, [])
  | none =>
    let proc := processAll call u writeOk bak.1 tasks
    (0, proc.1, bak.2.1, proc.2.1)

/-- Reading and preparing one file (main.go lines 335 to 380): `none`
models a read failure; otherwise the task captures the content snapshot
and the derived backup destination. -/
def prepareFile (workDir backupBaseDir : List Char) (fs : FsMap)
    (p : List Char) : Option FileToProcess :=
  match fs p with
  | none => none
  | some content => some ⟨p, content, prepareBackupPath workDir p backupBaseDir⟩

/-- Directory tree handed to the walk: named files and named
subdirectories, listed in walk order. -/
inductive FsEntry where
  | file (name : List Char)
  | dir (name : List Char) (sub : List FsEntry)

/-- Paths selected by the `filepath.Walk` callback of
`collectFilesFromDir` (main.go lines 295 to 333): a file is selected
when its name passes the markdown test; a subdirectory is descended
into only in recursive mode (otherwise the callback answers
`filepath.SkipDir`); the root directory itself is always entered. -/
def walkEntries (recursive : Bool) (dirPath : List Char) :
    List FsEntry → List (List Char)
  | [] => []
  | .file nm :: rest =>
    (if isMdPath nm then [goJoin dirPath nm] else []) ++
      walkEntries recursive dirPath rest
  | .dir nm sub :: rest =>
    (if recursive then walkEntries recursive (goJoin dirPath nm) sub else []) ++
      walkEntries recursive dirPath rest

/-- Paths of the matching files directly in the directory, as the
specification words the non-recursive selection. -/
def topLevelMdPaths (dirPath : List Char) (es : List FsEntry) : List (List Char) :=
  es.filterMap (fun e =>
    match e with
    | .file nm => if isMdPath nm then some (goJoin dirPath nm) else none
    | .dir _ _ => none)

/-- Membership of a markdown file anywhere in the tree: `MdInTree root p es`
holds when some file whose name passes the markdown test sits at path
`p` in the tree `es` rooted at `root`. -/
inductive MdInTree : List Char → List Char → List FsEntry → Prop where
  | here {root nm : List Char} {es : List FsEntry} :
      FsEntry.file nm ∈ es → isMdPath nm = true →
      MdInTree root (goJoin root nm) es
  | there {root dnm p : List Char} {sub : List FsEntry} {es : List FsEntry} :
      FsEntry.dir dnm sub ∈ es → MdInTree (goJoin root dnm) p sub →
      MdInTree root p es

/-- Task list built while walking a directory (main.go lines 318 to 323):
the walk aborts on the first preparation failure, which the `Option`
monad models. -/
def collectTasks (workDir backupBaseDir : List Char) (fs : FsMap)
    (recursive : Bool) (dirPath : List Char) (es : List FsEntry) :
    Option (List FileToProcess) :=
  (walkEntries recursive dirPath es).mapM (prepareFile workDir backupBaseDir fs)

/-- Positional argument of the run: an existing regular file or a
directory with its entries. -/
inductive MainTarget where
  | file (path : List Char)
  | directory (entries : List FsEntry)

/-- Whole run after setup, transcribing main.go lines 213 to 292: a
non-markdown single file exits 0 untouched; a failed preparation or
collection exits 1; an empty task list exits 0 untouched; otherwise the
two-phase batch runs.  The result is the exit code, the filesystem, the
backup writes and the source writes. -/
def fullMain (workDir backupDir : List Char) (recursive : Bool)
    (mkdirOk writeBakOk : List Char → Bool)
    (call : List Char → Nat → Except (List Char) (List Char))
    (u : List Char → Nat → ℚ) (writeOk : List Char → Bool) (fs : FsMap)
    (target : MainTarget) : Nat × FsMap × List (List Char) × List (List Char) :=
  let run := fun (tasks : List FileToProcess) =>
    if tasks.isEmpty then (0, fs, [], [])
    else runBatch mkdirOk writeBakOk call u writeOk fs tasks
  match target with
  | .file p =>
    if isMdPath p = false then (0, fs, [], [])
    else
      match prepareFile workDir backupDir fs p with
      | none => (1, fs, [], [])
      | some t => run [t]
  | .directory es =>
    match collectTasks workDir backupDir fs recursive workDir es with
    | none => (1, fs, [], [])
    | some tasks => run tasks

/-- Shared progress state, transcribing the counter fields of the
`StatusBar` struct (main.go lines 69 to 77); the rendering fields do
not affect the counters. -/
structure StatusBar where
  total : Nat
  processed : Nat
  success : Nat
  failed : Nat
deriving DecidableEq

/-- Constructor `NewStatusBar` (main.go lines 79 to 84). -/
def NewStatusBar (total : Nat) : StatusBar :=
  { total := total, processed := 0, success := 0, failed := 0 }

/-- Mutation of `IncrementSuccess` (main.go lines 86 to 93), performed
under the lock. -/
def StatusBar.incrementSuccess (s : StatusBar) : StatusBar :=
  { s with processed := s.processed + 1, success := s.success + 1 }

/-- Mutation of `IncrementFailed` (main.go lines 95 to 102), performed
under the lock. -/
def StatusBar.incrementFailed (s : StatusBar) : StatusBar :=
  { s with processed := s.processed + 1, failed := s.failed + 1 }

/-- One serialized report on the status bar; the lock makes every run a
linear sequence of these. -/
inductive SbOp where
  | reportSuccess
  | reportFailed
deriving DecidableEq

/-- Application of one report. -/
def applySbOp (s : StatusBar) : SbOp → StatusBar
  | .reportSuccess => s.incrementSuccess
  | .reportFailed => s.incrementFailed

/-- State of the bar after a sequence of reports; every prefix of a run
is itself such a sequence, so this covers every observation point. -/
def applySbOps (s : StatusBar) (ops : List SbOp) : StatusBar :=
  ops.foldl applySbOp s

/-- Phase of one worker goroutine with respect to the semaphore
(main.go lines 271 to 286): not yet admitted, holding the semaphore
while transforming, or finished after the deferred release. -/
inductive TaskPhase where
  | pending
  | running
  | finished
deriving DecidableEq

/-- Number of workers currently holding the semaphore. -/
def runningCount {n : Nat} (st : Fin n → TaskPhase) : Nat :=
  (Finset.univ.filter fun t => st t = TaskPhase.running).card

/-- Interleaving semantics of the scheduler (main.go lines 271 to 288):
a pending worker may start only while fewer than `C` workers hold the
semaphore (`Acquire` on a channel of capacity `C`), and a running
worker may always finish, releasing unconditionally through `defer`,
on success and on every failure path alike. -/
inductive SchedStep (C : Nat) {n : Nat} :
    (Fin n → TaskPhase) → (Fin n → TaskPhase) → Prop where
  | start (st : Fin n → TaskPhase) (t : Fin n) :
      st t = TaskPhase.pending → runningCount st < C →
      SchedStep C st (Function.update st t TaskPhase.running)
  | finish (st : Fin n → TaskPhase) (t : Fin n) :
      st t = TaskPhase.running →
      SchedStep C st (Function.update st t TaskPhase.finished)

/-- Initial state: every worker pending. -/
def initSched (n : Nat) : Fin n → TaskPhase := fun _ => TaskPhase.pending

/-- States the scheduler can reach from the initial state. -/
def SchedReachable (C : Nat) {n : Nat} (st : Fin n → TaskPhase) : Prop :=
  Relation.ReflTransGen (SchedStep C) (initSched n) st

/-! ### Retry client lemmas -/

theorem mapShift (g : Nat → ℚ) (a f : Nat) :
    g a :: (List.range f).map (fun i => g (a + 1 + i)) =
      (List.range (f + 1)).map (fun i => g (a + i)) := by
  rw [List.range_succ_eq_map, List.map_cons, List.map_map]
  refine congrArg₂ _ (by rw [Nat.add_zero]) ?_
  refine List.map_congr_left (fun i _ => ?_)
  simp only [Function.comp_apply, Nat.succ_eq_add_one]
  rw [show a + 1 + i = a + (i + 1) by omega]

theorem retryAux_calls_le (call : Nat → Except (List Char) (List Char))
    (u : Nat → ℚ) :
    ∀ fuel attempt lastErr, (retryAux call u fuel attempt lastErr).calls ≤ fuel := by
  intro fuel
  induction fuel with
  | zero => intro a le; simp [retryAux]
  | succ f ih =>
    intro a le
    simp only [retryAux]
    cases call a with
    | ok r => simp
    | error e => simpa using Nat.succ_le_succ (ih (a + 1) e)

theorem retryAux_success (call : Nat → Except (List Char) (List Char))
    (u : Nat → ℚ) (v : List Char) :
    ∀ k fuel attempt lastErr, k < fuel →
      (∀ i, i < k → ∃ e, call (attempt + i) = Except.error e) →
      call (attempt + k) = Except.ok v →
      retryAux call u fuel attempt lastErr =
        { result := v, err := none, calls := k + 1,
          sleeps := (List.range k).map
            (fun i => backoffWithJitter (attempt + i) (u (attempt + i))) } := by
  intro k
  induction k with
  | zero =>
    intro fuel a le hk hfail hok
    match fuel, hk with
    | f + 1, _ =>
      rw [Nat.add_zero] at hok
      simp [retryAux, hok]
  | succ k ih =>
    intro fuel a le hk hfail hok
    match fuel, hk with
    | f + 1, hk =>
      obtain ⟨e, he⟩ := hfail 0 (Nat.succ_pos k)
      rw [Nat.add_zero] at he
      have hrest := ih f (a + 1) e (Nat.lt_of_succ_lt_succ hk)
        (fun i hi => by
          obtain ⟨e2, he2⟩ := hfail (i + 1) (Nat.succ_lt_succ hi)
          exact ⟨e2, by rw [show a + 1 + i = a + (i + 1) by omega]; exact he2⟩)
        (by rw [show a + 1 + k = a + (k + 1) by omega]; exact hok)
      simp only [retryAux, he, hrest, RetryResult.mk.injEq, true_and]
      exact mapShift (fun m => backoffWithJitter m (u m)) a k

theorem retryAux_allFail (call : Nat → Except (List Char) (List Char))
    (u : Nat → ℚ) (es : Nat → List Char) :
    ∀ fuel attempt lastErr,
      (∀ i, i < fuel → call (attempt + i) = Except.error (es (attempt + i))) →
      retryAux call u fuel attempt lastErr =
        { result := [],
          err := some (maxRetriesMsg ++
            (if fuel = 0 then lastErr else es (attempt + fuel - 1))),
          calls := fuel,
          sleeps := (List.range fuel).map
            (fun i => backoffWithJitter (attempt + i) (u (attempt + i))) } := by
  intro fuel
  induction fuel with
  | zero => intro a le h; simp [retryAux]
  | succ f ih =>
    intro a le h
    have he := h 0 (Nat.succ_pos f)
    rw [Nat.add_zero] at he
    have hrest := ih (a + 1) (es a)
      (fun i hi => by
        rw [show a + 1 + i = a + (i + 1) by omega]
        exact h (i + 1) (Nat.succ_lt_succ hi))
    simp only [retryAux, he, hrest, RetryResult.mk.injEq, true_and]
    refine ⟨?_, mapShift (fun m => backoffWithJitter m (u m)) a f⟩
    rcases Nat.eq_zero_or_pos f with hf | hf
    · subst hf; simp
    · have hne : f ≠ 0 := Nat.pos_iff_ne_zero.mp hf
      simp only [hne, if_false, Nat.succ_ne_zero]
      rw [show a + 1 + f - 1 = a + (f + 1) - 1 by omega]

theorem retryAux_sleeps_getD (call : Nat → Except (List Char) (List Char))
    (u : Nat → ℚ) :
    ∀ fuel attempt lastErr n,
      n < (retryAux call u fuel attempt lastErr).sleeps.length →
      (retryAux call u fuel attempt lastErr).sleeps.getD n 0 =
        backoffWithJitter (attempt + n) (u (attempt + n)) := by
  intro fuel
  induction fuel with
  | zero => intro a le n h; simp [retryAux] at h
  | succ f ih =>
    intro a le n h
    cases hc : call a with
    | ok r => simp [retryAux, hc] at h
    | error e =>
      simp only [retryAux, hc] at h ⊢
      cases n with
      | zero => simp
      | succ n =>
        simp only [List.length_cons, Nat.succ_lt_succ_iff] at h
        simp only [List.getD_cons_succ]
        rw [ih (a + 1) e n h, show a + 1 + n = a + (n + 1) by omega]

theorem backoffSecondsOf_eq_min (n : Nat) :
    backoffSecondsOf n = min (InitialBackoffSec * 2 ^ n) MaxBackoffSec := by
  unfold backoffSecondsOf
  split
  · rename_i h; rw [min_eq_right (le_of_lt h)]
  · rename_i h; rw [min_eq_left (not_lt.mp h)]

theorem backoffSecondsOf_nonneg (n : Nat) : 0 ≤ backoffSecondsOf n := by
  unfold backoffSecondsOf InitialBackoffSec MaxBackoffSec
  split <;> positivity

theorem backoffWithJitter_close (n : Nat) (un : ℚ)
    (h0 : 0 ≤ un) (h1 : un < 1) :
    |backoffWithJitter n un - backoffSecondsOf n| ≤ backoffSecondsOf n * (1 / 5) := by
  have hbase := backoffSecondsOf_nonneg n
  have hdiff : backoffWithJitter n un - backoffSecondsOf n =
      backoffSecondsOf n * jitterOf un := by
    unfold backoffWithJitter; ring
  have hj : |jitterOf un| ≤ 1 / 5 := by
    unfold jitterOf
    rw [abs_le]
    constructor <;> linarith
  rw [hdiff, abs_mul, abs_of_nonneg hbase]
  exact mul_le_mul_of_nonneg_left hj hbase

/-! ### Status bar lemmas -/

theorem applySbOps_cons (s : StatusBar) (op : SbOp) (ops : List SbOp) :
    applySbOps s (op :: ops) = applySbOps (applySbOp s op) ops := rfl

theorem applySbOps_fields (ops : List SbOp) :
    ∀ s : StatusBar,
      (applySbOps s ops).total = s.total ∧
      (applySbOps s ops).processed = s.processed + ops.length ∧
      (applySbOps s ops).success + (applySbOps s ops).failed =
        s.success + s.failed + ops.length := by
  induction ops with
  | nil => intro s; simp [applySbOps]
  | cons op rest ih =>
    intro s
    have h := ih (applySbOp s op)
    rw [applySbOps_cons]
    cases op <;>
      simp only [applySbOp, StatusBar.incrementSuccess, StatusBar.incrementFailed,
        List.length_cons] at h ⊢ <;>
      exact ⟨h.1, by omega, by omega⟩

/-! ### Claims about the retry client and the status bar -/

/-- C4: the retrying transform client invokes the underlying call at
most `MaxRetries` (5) times; a first success at attempt `k` (after `k`
failures) returns the result of that attempt with no error after exactly
`k + 1` calls, consuming no further budget; if all attempts fail the
client returns the empty result together with a terminal error that
wraps the last underlying error. -/
theorem claim_C4 (call : Nat → Except (List Char) (List Char)) (u : Nat → ℚ) :
    (processWithGeminiRetry call u).calls ≤ MaxRetries ∧
    (∀ k v, k < MaxRetries →
      (∀ i, i < k → ∃ e, call i = Except.error e) →
      call k = Except.ok v →
      (processWithGeminiRetry call u).result = v ∧
        (processWithGeminiRetry call u).err = none ∧
        (processWithGeminiRetry call u).calls = k + 1) ∧
    (∀ es : Nat → List Char,
      (∀ i, i < MaxRetries → call i = Except.error (es i)) →
      (processWithGeminiRetry call u).result = [] ∧
        (processWithGeminiRetry call u).err =
          some (maxRetriesMsg ++ es (MaxRetries - 1)) ∧
        (processWithGeminiRetry call u).calls = MaxRetries) := by
  refine ⟨retryAux_calls_le call u MaxRetries 0 [], ?_, ?_⟩
  · intro k v hk hfail hok
    have h := retryAux_success call u v k MaxRetries 0 [] hk
      (fun i hi => by simpa using hfail i hi) (by simpa using hok)
    rw [processWithGeminiRetry, h]
    exact ⟨rfl, rfl, rfl⟩
  · intro es hfail
    have h := retryAux_allFail call u es MaxRetries 0 []
      (fun i hi => by simpa using hfail i hi)
    rw [processWithGeminiRetry, h]
    refine ⟨rfl, ?_, rfl⟩
    simp [MaxRetries]

/-- Witness for C4 at a run whose every attempt fails with the same
error. -/
theorem claim_C4_witness :
    (processWithGeminiRetry (fun _ => Except.error ['x']) (fun _ => 0)).err =
      some (maxRetriesMsg ++ ['x']) := by
  exact ((claim_C4 (fun _ => Except.error ['x']) (fun _ => 0)).2.2
    (fun _ => ['x']) (fun i _ => rfl)).2.1

/-- C5: the delay slept after failed attempt `n` is the capped
exponential backoff `min(InitialBackoff * 2^n, MaxBackoff)` perturbed
by the jitter of that iteration, and it lies within twenty percent of
that base value whenever the jitter sample is a unit-interval draw; no
delay is taken before the first attempt (a first-attempt success sleeps
nowhere). -/
theorem claim_C5 (call : Nat → Except (List Char) (List Char)) (u : Nat → ℚ)
    (hu : ∀ n, 0 ≤ u n ∧ u n < 1) :
    (∀ n, backoffSecondsOf n = min (InitialBackoffSec * 2 ^ n) MaxBackoffSec) ∧
    (∀ n, n < (processWithGeminiRetry call u).sleeps.length →
      (processWithGeminiRetry call u).sleeps.getD n 0 =
        backoffWithJitter n (u n) ∧
      |(processWithGeminiRetry call u).sleeps.getD n 0 - backoffSecondsOf n| ≤
        backoffSecondsOf n * (1 / 5)) ∧
    (∀ v, call 0 = Except.ok v → (processWithGeminiRetry call u).sleeps = []) := by
  refine ⟨backoffSecondsOf_eq_min, ?_, ?_⟩
  · intro n hn
    have h := retryAux_sleeps_getD call u MaxRetries 0 [] n hn
    rw [Nat.zero_add] at h
    have h2 : (processWithGeminiRetry call u).sleeps.getD n 0 =
        backoffWithJitter n (u n) := h
    refine ⟨h2, ?_⟩
    rw [h2]
    exact backoffWithJitter_close n (u n) (hu n).1 (hu n).2
  · intro v hv
    simp [processWithGeminiRetry, MaxRetries, retryAux, hv]

/-- Witness for C5 at an all-failing run with jitter sample one half:
the first slept delay is the jittered one-second backoff. -/
theorem claim_C5_witness :
    (processWithGeminiRetry (fun _ => Except.error ['x'])
        (fun _ => (1 : ℚ) / 2)).sleeps.getD 0 0 =
      backoffWithJitter 0 ((1 : ℚ) / 2) := by
  have hlen : (processWithGeminiRetry (fun _ => Except.error ['x'])
      (fun _ => (1 : ℚ) / 2)).sleeps.length = 5 := by
    simp [processWithGeminiRetry, MaxRetries, retryAux]
  exact (((claim_C5 (fun _ => Except.error ['x']) (fun _ => (1 : ℚ) / 2)
    (fun n => by norm_num)).2.1 0 (by rw [hlen]; norm_num))).1

/-- C9: when every underlying attempt fails, the client sleeps the
computed backoff delay after each of the `MaxRetries` (5) failed
attempts, including after the final one, so exactly five sleeps occur
before the terminal error is returned. -/
theorem claim_C9 (call : Nat → Except (List Char) (List Char)) (u : Nat → ℚ)
    (es : Nat → List Char)
    (hfail : ∀ i, i < MaxRetries → call i = Except.error (es i)) :
    (processWithGeminiRetry call u).sleeps =
      (List.range MaxRetries).map (fun i => backoffWithJitter i (u i)) ∧
    (processWithGeminiRetry call u).sleeps.length = MaxRetries ∧
    (processWithGeminiRetry call u).err.isSome = true := by
  have h := retryAux_allFail call u es MaxRetries 0 []
    (fun i hi => by simpa using hfail i hi)
  rw [processWithGeminiRetry, h]
  refine ⟨by simp, by simp, rfl⟩

/-- Witness for C9 at a concrete all-failing run. -/
theorem claim_C9_witness :
    (processWithGeminiRetry (fun _ => Except.error ['x'])
        (fun _ => 0)).sleeps.length = MaxRetries := by
  exact (claim_C9 (fun _ => Except.error ['x']) (fun _ => 0)
    (fun _ => ['x']) (fun i _ => rfl)).2.1

/-- C3 counterexample: the claim quantifies over every sequence of
increment calls, but nothing in the code caps `processed` at `total`;
two success reports on a bar of total one drive `processed` past
`total`. -/
theorem claim_C3_counterexample :
    ¬ ((applySbOps (NewStatusBar 1)
          [SbOp.reportSuccess, SbOp.reportSuccess]).processed ≤
        (applySbOps (NewStatusBar 1)
          [SbOp.reportSuccess, SbOp.reportSuccess]).total) := by
  decide

/-- C3 amended: on a bar initialized with total `N`, after any sequence
of serialized increment reports the equality
`processed = success + failed` holds (hence at every observation point,
every prefix being itself such a sequence), `processed` equals the
number of reports, `processed ≤ total` holds provided at most `N`
reports are made (each task reports at most once), and when exactly `N`
reports are made `processed = total` holds at the final render. -/
theorem claim_C3 (N : Nat) (ops : List SbOp) :
    (applySbOps (NewStatusBar N) ops).processed =
      (applySbOps (NewStatusBar N) ops).success +
        (applySbOps (NewStatusBar N) ops).failed ∧
    (applySbOps (NewStatusBar N) ops).total = N ∧
    (applySbOps (NewStatusBar N) ops).processed = ops.length ∧
    (ops.length ≤ N →
      (applySbOps (NewStatusBar N) ops).processed ≤
        (applySbOps (NewStatusBar N) ops).total) ∧
    (ops.length = N →
      (applySbOps (NewStatusBar N) ops).processed =
        (applySbOps (NewStatusBar N) ops).total) := by
  have h := applySbOps_fields ops (NewStatusBar N)
  have hN : (NewStatusBar N).total = N := rfl
  have hp : (NewStatusBar N).processed = 0 := rfl
  have hs : (NewStatusBar N).success = 0 := rfl
  have hf : (NewStatusBar N).failed = 0 := rfl
  exact ⟨by omega, by omega, by omega, by omega, by omega⟩

/-- Witness for C3 at a bar of two tasks reporting one success and one
failure. -/
theorem claim_C3_witness :
    (applySbOps (NewStatusBar 2)
        [SbOp.reportSuccess, SbOp.reportFailed]).processed =
      (applySbOps (NewStatusBar 2)
        [SbOp.reportSuccess, SbOp.reportFailed]).total := by
  exact (claim_C3 2 [SbOp.reportSuccess, SbOp.reportFailed]).2.2.2.2 rfl

/-! ### Worker write-back -/

/-- C2: after a worker completes, the source path holds either exactly
the output of the retry client when it succeeded, or the original
content; a terminal failure (retry budget exhausted or write-back
refusal) leaves the whole filesystem untouched, and a write to the
source path happens only when the transform succeeded.  The last
conjunct names the successful attempt: if attempt `k` is the first to
succeed, the file ends as the verbatim output of that attempt or stays
original. -/
theorem claim_C2 (call : List Char → Nat → Except (List Char) (List Char))
    (u : List Char → Nat → ℚ) (writeOk : List Char → Bool) (fs : FsMap)
    (t : FileToProcess) :
    (((processWithGeminiRetry (call t.content) (u t.content)).err = none ∧
        (processFileContent call u writeOk fs t).2.1 t.path =
          some (processWithGeminiRetry (call t.content) (u t.content)).result) ∨
      (processFileContent call u writeOk fs t).2.1 t.path = fs t.path) ∧
    ((processFileContent call u writeOk fs t).1 = false →
      (processFileContent call u writeOk fs t).2.1 = fs ∧
      (processFileContent call u writeOk fs t).2.2 = []) ∧
    ((processFileContent call u writeOk fs t).2.2 ≠ [] →
      (processWithGeminiRetry (call t.content) (u t.content)).err = none) ∧
    (∀ k v, k < MaxRetries →
      (∀ i, i < k → ∃ e, call t.content i = Except.error e) →
      call t.content k = Except.ok v →
      ((processFileContent call u writeOk fs t).2.1 t.path = some v ∨
        (processFileContent call u writeOk fs t).2.1 t.path = fs t.path)) := by
  cases he : (processWithGeminiRetry (call t.content) (u t.content)).err with
  | some e =>
    have hpc : processFileContent call u writeOk fs t = (false, fs, []) := by
      unfold processFileContent
      dsimp only
      rw [he]
    rw [hpc]
    refine ⟨Or.inr rfl, fun _ => ⟨rfl, rfl⟩, fun h => absurd rfl h, ?_⟩
    intro k v hk hfail hok
    have h := retryAux_success (call t.content) (u t.content) v k MaxRetries 0 []
      hk (fun i hi => by simpa using hfail i hi) (by simpa using hok)
    rw [processWithGeminiRetry, h] at he
    exact absurd he (by simp)
  | none =>
    by_cases hw : writeOk t.path = true
    · have hpc : processFileContent call u writeOk fs t =
          (true, updateFs fs t.path
            (processWithGeminiRetry (call t.content) (u t.content)).result,
            [t.path]) := by
        unfold processFileContent
        dsimp only
        rw [he]
        simp [hw]
      rw [hpc]
      refine ⟨Or.inl ⟨rfl, by simp [updateFs]⟩, fun h => by simp at h,
        fun _ => rfl, ?_⟩
      intro k v hk hfail hok
      have h := retryAux_success (call t.content) (u t.content) v k MaxRetries 0 []
        hk (fun i hi => by simpa using hfail i hi) (by simpa using hok)
      have hres : (processWithGeminiRetry (call t.content) (u t.content)).result = v := by
        rw [processWithGeminiRetry, h]
      exact Or.inl (by simp [updateFs, hres])
    · have hpc : processFileContent call u writeOk fs t = (false, fs, []) := by
        unfold processFileContent
        dsimp only
        rw [he]
        simp [hw]
      rw [hpc]
      exact ⟨Or.inr rfl, fun _ => ⟨rfl, rfl⟩, fun h => absurd rfl h,
        fun k v hk hfail hok => Or.inr rfl⟩

/-- Witness for C2 at a concrete task whose transform succeeds on the
first attempt and whose write-back succeeds. -/
theorem claim_C2_witness :
    (processFileContent (fun _ _ => Except.ok ['y']) (fun _ _ => 0)
          (fun _ => true) (fun _ => some ['c'])
          ⟨['a'], ['c'], ['b']⟩).2.1 ['a'] = some ['y'] ∨
      (processFileContent (fun _ _ => Except.ok ['y']) (fun _ _ => 0)
          (fun _ => true) (fun _ => some ['c'])
          ⟨['a'], ['c'], ['b']⟩).2.1 ['a'] = some ['c'] := by
  exact (claim_C2 (fun _ _ => Except.ok ['y']) (fun _ _ => 0)
    (fun _ => true) (fun _ => some ['c']) ⟨['a'], ['c'], ['b']⟩).2.2.2
    0 ['y'] (by decide) (fun i hi => absurd hi (Nat.not_lt_zero i)) rfl

/-! ### Directory walk -/

theorem mem_walk_of_file (root nm : List Char) :
    ∀ es : List FsEntry, FsEntry.file nm ∈ es → isMdPath nm = true →
      goJoin root nm ∈ walkEntries true root es := by
  intro es
  induction es with
  | nil => intro hmem _; cases hmem
  | cons e rest ih =>
    intro hmem hmd
    cases hmem with
    | head => simp [walkEntries, hmd]
    | tail _ h =>
      cases e with
      | file nm2 =>
        simp only [walkEntries]
        exact List.mem_append_right _ (ih h hmd)
      | dir nm2 sub =>
        simp only [walkEntries]
        exact List.mem_append_right _ (ih h hmd)

theorem mem_walk_of_dir (root dnm q : List Char) (sub : List FsEntry) :
    ∀ es : List FsEntry, FsEntry.dir dnm sub ∈ es →
      q ∈ walkEntries true (goJoin root dnm) sub →
      q ∈ walkEntries true root es := by
  intro es
  induction es with
  | nil => intro hmem _; cases hmem
  | cons e rest ih =>
    intro hmem hq
    cases hmem with
    | head =>
      simp only [walkEntries, if_true]
      exact List.mem_append_left _ hq
    | tail _ h =>
      cases e with
      | file nm2 =>
        simp only [walkEntries]
        exact List.mem_append_right _ (ih h hq)
      | dir nm2 sub2 =>
        simp only [walkEntries]
        exact List.mem_append_right _ (ih h hq)

theorem mdInTree_mem_walk {root p : List Char} {es : List FsEntry}
    (h : MdInTree root p es) : p ∈ walkEntries true root es := by
  induction h with
  | here hmem hmd => exact mem_walk_of_file _ _ _ hmem hmd
  | there hmem _ ih => exact mem_walk_of_dir _ _ _ _ _ hmem ih

theorem walkEntries_nonrec (dirPath : List Char) :
    ∀ es : List FsEntry,
      walkEntries false dirPath es = topLevelMdPaths dirPath es := by
  intro es
  induction es with
  | nil => simp [walkEntries, topLevelMdPaths]
  | cons e rest ih =>
    cases e with
    | file nm =>
      simp only [walkEntries, topLevelMdPaths, List.filterMap_cons] at ih ⊢
      by_cases h : isMdPath nm <;> simp [h, ih]
    | dir nm sub =>
      simp only [walkEntries, topLevelMdPaths, List.filterMap_cons] at ih ⊢
      simpa using ih

/-- C8: with `recursive = false` the collection selects exactly the
matching (`.md`) files directly in the directory: every top-level match
is included and everything inside a nested subdirectory is excluded;
with `recursive = true` every matching file anywhere in the tree is
included as well. -/
theorem claim_C8 (root : List Char) (es : List FsEntry) :
    walkEntries false root es = topLevelMdPaths root es ∧
    (∀ p, MdInTree root p es → p ∈ walkEntries true root es) := by
  exact ⟨walkEntries_nonrec root es, fun p h => mdInTree_mem_walk h⟩

/-- Witness for C8: in a directory holding a matching top-level file
and a subdirectory with a nested matching file, the non-recursive walk
selects exactly the top-level match while the recursive walk also
reaches the nested one. -/
theorem claim_C8_witness :
    walkEntries false ['d']
        [FsEntry.file ['a', '.', 'm', 'd'],
         FsEntry.dir ['s'] [FsEntry.file ['b', '.', 'm', 'd']],
         FsEntry.file ['c', '.', 't', 'x', 't']] =
      topLevelMdPaths ['d']
        [FsEntry.file ['a', '.', 'm', 'd'],
         FsEntry.dir ['s'] [FsEntry.file ['b', '.', 'm', 'd']],
         FsEntry.file ['c', '.', 't', 'x', 't']] ∧
    goJoin (goJoin ['d'] ['s']) ['b', '.', 'm', 'd'] ∈
      walkEntries true ['d']
        [FsEntry.file ['a', '.', 'm', 'd'],
         FsEntry.dir ['s'] [FsEntry.file ['b', '.', 'm', 'd']],
         FsEntry.file ['c', '.', 't', 'x', 't']] := by
  refine ⟨(claim_C8 ['d'] _).1, (claim_C8 ['d'] _).2 _ ?_⟩
  exact MdInTree.there (List.Mem.tail _ (List.Mem.head _))
    (MdInTree.here (List.Mem.head _) (by decide))

/-! ### Scheduler invariant -/

theorem filter_update_running {n : Nat} (st : Fin n → TaskPhase) (t : Fin n)
    (h : st t ≠ TaskPhase.running) :
    (Finset.univ.filter fun x =>
        Function.update st t TaskPhase.running x = TaskPhase.running) =
      insert t (Finset.univ.filter fun x => st x = TaskPhase.running) := by
  ext x
  by_cases hx : x = t
  · subst hx; simp [Function.update_same]
  · simp [Function.update_noteq hx, hx]

theorem filter_update_finished {n : Nat} (st : Fin n → TaskPhase) (t : Fin n) :
    (Finset.univ.filter fun x =>
        Function.update st t TaskPhase.finished x = TaskPhase.running) =
      (Finset.univ.filter fun x => st x = TaskPhase.running).erase t := by
  ext x
  by_cases hx : x = t
  · subst hx; simp [Function.update_same]
  · simp [Function.update_noteq hx, hx]

theorem runningCount_update_running {n : Nat} (st : Fin n → TaskPhase)
    (t : Fin n) (h : st t ≠ TaskPhase.running) :
    runningCount (Function.update st t TaskPhase.running) =
      runningCount st + 1 := by
  unfold runningCount
  rw [filter_update_running st t h, Finset.card_insert_of_not_mem (by simp [h])]

/-- C7: in every reachable scheduler state at most `MaxConcurrent` (3)
workers hold the semaphore, and every worker holding it can always
release it (the deferred release is enabled unconditionally, on success
and on every failure path), so the ceiling is never exceeded and no
worker can leave the semaphore permanently held. -/
theorem claim_C7 {n : Nat} (st : Fin n → TaskPhase)
    (h : SchedReachable MaxConcurrent st) :
    runningCount st ≤ MaxConcurrent ∧
    (∀ t, st t = TaskPhase.running →
      SchedStep MaxConcurrent st (Function.update st t TaskPhase.finished)) := by
  refine ⟨?_, fun t ht => SchedStep.finish st t ht⟩
  unfold SchedReachable at h
  induction h with
  | refl => simp [runningCount, initSched]
  | tail hsteps hstep ih =>
    cases hstep with
    | start t hp hc =>
      rw [runningCount_update_running _ t (by simp [hp])]
      omega
    | finish t hr =>
      unfold runningCount
      rw [filter_update_finished _ t]
      exact le_trans Finset.card_erase_le ih

/-- Witness for C7 at the initial state of a four-task run. -/
theorem claim_C7_witness :
    runningCount (initSched 4) ≤ MaxConcurrent := by
  exact (claim_C7 (initSched 4) Relation.ReflTransGen.refl).1

/-! ### Backup phase lemmas -/

theorem backupAllFiles_untouched (mkdirOk writeOk : List Char → Bool) :
    ∀ (tasks : List FileToProcess) (fs : FsMap) (q : List Char),
      q ∉ (backupAllFiles mkdirOk writeOk fs tasks).2.1 →
      (backupAllFiles mkdirOk writeOk fs tasks).1 q = fs q := by
  intro tasks
  induction tasks with
  | nil => intro fs q _; rfl
  | cons t rest ih =>
    intro fs q hq
    by_cases h1 : mkdirOk (dirOf t.backupPath) = false
    · simp [backupAllFiles, h1]
    · by_cases h2 : writeOk t.backupPath = false
      · simp [backupAllFiles, h1, h2]
      · simp only [backupAllFiles, if_neg h1, if_neg h2] at hq ⊢
        have hq1 : q ≠ t.backupPath := fun h => hq (by simp [h])
        have hq2 : q ∉ (backupAllFiles mkdirOk writeOk
            (updateFs fs t.backupPath t.content) rest).2.1 :=
          fun h => hq (List.mem_cons_of_mem _ h)
        rw [ih (updateFs fs t.backupPath t.content) q hq2]
        simp [updateFs, hq1]

theorem backupAllFiles_written_sub (mkdirOk writeOk : List Char → Bool) :
    ∀ (tasks : List FileToProcess) (fs : FsMap),
      ∀ p ∈ (backupAllFiles mkdirOk writeOk fs tasks).2.1,
        p ∈ tasks.map (fun x => x.backupPath) := by
  intro tasks
  induction tasks with
  | nil => intro fs p hp; simp [backupAllFiles] at hp
  | cons t rest ih =>
    intro fs p hp
    by_cases h1 : mkdirOk (dirOf t.backupPath) = false
    · simp [backupAllFiles, h1] at hp
    · by_cases h2 : writeOk t.backupPath = false
      · simp [backupAllFiles, h1, h2] at hp
      · simp only [backupAllFiles, if_neg h1, if_neg h2] at hp
        rcases List.mem_cons.mp hp with h | h
        · simp [h]
        · exact List.mem_cons_of_mem _ (ih _ p h)

theorem backupAllFiles_written (mkdirOk writeOk : List Char → Bool) :
    ∀ (tasks : List FileToProcess) (fs : FsMap),
      ∀ p ∈ (backupAllFiles mkdirOk writeOk fs tasks).2.1,
        ∃ t ∈ tasks, p = t.backupPath ∧
          ((tasks.map (fun x => x.backupPath)).Nodup →
            (backupAllFiles mkdirOk writeOk fs tasks).1 p = some t.content) := by
  intro tasks
  induction tasks with
  | nil => intro fs p hp; simp [backupAllFiles] at hp
  | cons t rest ih =>
    intro fs p hp
    by_cases h1 : mkdirOk (dirOf t.backupPath) = false
    · simp [backupAllFiles, h1] at hp
    · by_cases h2 : writeOk t.backupPath = false
      · simp [backupAllFiles, h1, h2] at hp
      · simp only [backupAllFiles, if_neg h1, if_neg h2] at hp ⊢
        rcases List.mem_cons.mp hp with h | h
        · refine ⟨t, List.mem_cons_self t rest, h, fun hnd => ?_⟩
          have hnd2 : (∀ x ∈ rest, ¬x.backupPath = t.backupPath) ∧
              (rest.map (fun x => x.backupPath)).Nodup := by simpa using hnd
          have hnotin : t.backupPath ∉ (backupAllFiles mkdirOk writeOk
              (updateFs fs t.backupPath t.content) rest).2.1 := by
            intro hmem
            have hsub := backupAllFiles_written_sub mkdirOk writeOk rest
              (updateFs fs t.backupPath t.content) t.backupPath hmem
            obtain ⟨x, hx, hxe⟩ := List.mem_map.mp hsub
            exact hnd2.1 x hx hxe
          rw [h, backupAllFiles_untouched mkdirOk writeOk rest
            (updateFs fs t.backupPath t.content) t.backupPath hnotin]
          simp [updateFs]
        · obtain ⟨t2, ht2, hpt2, hfs2⟩ := ih (updateFs fs t.backupPath t.content) p h
          refine ⟨t2, List.mem_cons_of_mem _ ht2, hpt2, fun hnd => ?_⟩
          have hnd2 : (∀ x ∈ rest, ¬x.backupPath = t.backupPath) ∧
              (rest.map (fun x => x.backupPath)).Nodup := by simpa using hnd
          exact hfs2 hnd2.2

theorem backupAllFiles_err (mkdirOk writeOk : List Char → Bool) :
    ∀ (tasks : List FileToProcess) (fs : FsMap) (m : List Char),
      (backupAllFiles mkdirOk writeOk fs tasks).2.2 = some m →
      ∃ t ∈ tasks,
        m = errBackupDirMsg ++ t.path ∨ m = errBackupFileMsg ++ t.path := by
  intro tasks
  induction tasks with
  | nil => intro fs m hm; simp [backupAllFiles] at hm
  | cons t rest ih =>
    intro fs m hm
    by_cases h1 : mkdirOk (dirOf t.backupPath) = false
    · simp only [backupAllFiles, if_pos h1, Option.some.injEq] at hm
      exact ⟨t, List.mem_cons_self t rest, Or.inl hm.symm⟩
    · by_cases h2 : writeOk t.backupPath = false
      · simp only [backupAllFiles, if_neg h1, if_pos h2, Option.some.injEq] at hm
        exact ⟨t, List.mem_cons_self t rest, Or.inr hm.symm⟩
      · simp only [backupAllFiles, if_neg h1, if_neg h2] at hm
        obtain ⟨t2, ht2, hor⟩ := ih (updateFs fs t.backupPath t.content) m hm
        exact ⟨t2, List.mem_cons_of_mem _ ht2, hor⟩

theorem bak_not_md (p : List Char) (h : bakSuffix <:+ p) : isMdPath p = false := by
  obtain ⟨q, hq⟩ := h
  subst hq
  unfold isMdPath
  rw [Bool.eq_false_iff]
  intro hcon
  rw [List.isSuffixOf_iff_suffix] at hcon
  rw [List.map_append] at hcon
  have hbk : List.map lowerChar bakSuffix = bakSuffix := by decide
  rw [hbk] at hcon
  have hb : bakSuffix <:+ List.map lowerChar q ++ bakSuffix := List.suffix_append _ _
  rcases List.suffix_or_suffix_of_suffix hcon hb with h | h <;>
    exact absurd h (by decide)

/-- C1: a backup-phase failure yields an error that names the offending
source path; the whole run then exits with code 1 before any transform
or write-back begins (the source-write list is empty); no source file
is mutated by the backup phase (sources carry the markdown suffix,
backups the `.bak` suffix, so the two path sets are disjoint); and the
backups of the earlier, already-processed tasks are left in place,
holding the content of their task. -/
theorem claim_C1 (mkdirOk writeBakOk : List Char → Bool)
    (call : List Char → Nat → Except (List Char) (List Char))
    (u : List Char → Nat → ℚ) (writeOk : List Char → Bool)
    (fs : FsMap) (tasks : List FileToProcess) (m : List Char)
    (hm : (backupAllFiles mkdirOk writeBakOk fs tasks).2.2 = some m) :
    (∃ t ∈ tasks,
      m = errBackupDirMsg ++ t.path ∨ m = errBackupFileMsg ++ t.path) ∧
    runBatch mkdirOk writeBakOk call u writeOk fs tasks =
      (1, (backupAllFiles mkdirOk writeBakOk fs tasks).1,
        (backupAllFiles mkdirOk writeBakOk fs tasks).2.1, []) ∧
    ((∀ t ∈ tasks, isMdPath t.path = true) →
      (∀ t ∈ tasks, bakSuffix <:+ t.backupPath) →
      ∀ t ∈ tasks,
        (backupAllFiles mkdirOk writeBakOk fs tasks).1 t.path = fs t.path) ∧
    ((tasks.map (fun x => x.backupPath)).Nodup →
      ∀ p ∈ (backupAllFiles mkdirOk writeBakOk fs tasks).2.1,
        ∃ t ∈ tasks, p = t.backupPath ∧
          (backupAllFiles mkdirOk writeBakOk fs tasks).1 p = some t.content) := by
  refine ⟨backupAllFiles_err mkdirOk writeBakOk tasks fs m hm, ?_, ?_, ?_⟩
  · unfold runBatch
    dsimp only
    rw [hm]
  · intro hmd hbak t ht
    refine backupAllFiles_untouched mkdirOk writeBakOk tasks fs t.path ?_
    intro hmem
    obtain ⟨t2, ht2, hpt2, _⟩ :=
      backupAllFiles_written mkdirOk writeBakOk tasks fs t.path hmem
    have : isMdPath t.path = false := bak_not_md t.path (hpt2 ▸ hbak t2 ht2)
    rw [hmd t ht] at this
    cases this
  · intro hnd p hp
    obtain ⟨t2, ht2, hpt2, hfs2⟩ :=
      backupAllFiles_written mkdirOk writeBakOk tasks fs p hp
    exact ⟨t2, ht2, hpt2, hfs2 hnd⟩

/-- Witness for C1 at a one-task batch whose backup directory creation
is denied. -/
theorem claim_C1_witness :
    ∃ t ∈ [(⟨['a'], ['c'], ['b']⟩ : FileToProcess)],
      errBackupDirMsg ++ ['a'] = errBackupDirMsg ++ t.path ∨
      errBackupDirMsg ++ ['a'] = errBackupFileMsg ++ t.path := by
  exact (claim_C1 (fun _ => false) (fun _ => true) (fun _ _ => Except.ok [])
    (fun _ _ => 0) (fun _ => true) (fun _ => none)
    [⟨['a'], ['c'], ['b']⟩] (errBackupDirMsg ++ ['a']) rfl).1

/-! ### Early-exit paths of main -/

/-- C10: a positional argument naming an existing regular file whose
lower-cased name does not end in `.md` exits with code 0 having written
no backup, transformed nothing and mutated no file; a directory whose
walk yields zero matching files likewise exits 0 after doing no backup
or transform work. -/
theorem claim_C10 (workDir backupDir : List Char) (recursive : Bool)
    (mkdirOk writeBakOk : List Char → Bool)
    (call : List Char → Nat → Except (List Char) (List Char))
    (u : List Char → Nat → ℚ) (writeOk : List Char → Bool) (fs : FsMap) :
    (∀ p, isMdPath p = false →
      fullMain workDir backupDir recursive mkdirOk writeBakOk call u writeOk fs
        (MainTarget.file p) = (0, fs, [], [])) ∧
    (∀ es, walkEntries recursive workDir es = [] →
      fullMain workDir backupDir recursive mkdirOk writeBakOk call u writeOk fs
        (MainTarget.directory es) = (0, fs, [], [])) := by
  constructor
  · intro p hp
    simp [fullMain, hp]
  · intro es hes
    unfold fullMain collectTasks
    dsimp only
    rw [hes]
    rfl

/-! ### Backup path derivation lemmas -/

theorem baseOf_append (d b : List Char) (hb : pathSep ∉ b) :
    baseOf (d ++ pathSep :: b) = b := by
  unfold baseOf
  have h1 : (d ++ pathSep :: b).reverse = b.reverse ++ pathSep :: d.reverse := by
    simp
  rw [h1, List.takeWhile_append_of_pos, List.takeWhile_cons_of_neg]
  · simp
  · simp
  · intro a ha
    simp only [ne_eq, decide_eq_true_eq]
    intro hcon
    exact hb (by rw [← hcon]; exact List.mem_reverse.mp ha)

theorem dirOf_append (d b : List Char) (hd : d ≠ []) (hb : pathSep ∉ b) :
    dirOf (d ++ pathSep :: b) = d := by
  unfold dirOf
  have h1 : (d ++ pathSep :: b).reverse = b.reverse ++ pathSep :: d.reverse := by
    simp
  rw [h1, List.dropWhile_append_of_pos, List.dropWhile_cons_of_neg]
  · have hne : pathSep :: d.reverse ≠ [pathSep] := by
      intro h
      exact hd (by simpa using congrArg List.tail h)
    rw [if_neg hne]
    simp
  · simp
  · intro a ha
    simp only [ne_eq, decide_eq_true_eq]
    intro hcon
    exact hb (by rw [← hcon]; exact List.mem_reverse.mp ha)

theorem drop_after_sep (wd x : List Char) :
    (wd ++ pathSep :: x).drop (wd.length + 1) = x := by
  rw [show wd ++ pathSep :: x = (wd ++ [pathSep]) ++ x by simp]
  exact List.drop_left' (by simp)

theorem goJoin_nil_left (b : List Char) : goJoin [] b = b := by
  unfold goJoin
  simp

theorem goJoin_of_head_sep (a x : List Char) (ha : a ≠ [])
    (hx : x.head? = some pathSep) : goJoin a x = a ++ x := by
  have hxne : x ≠ [] := by intro h; rw [h] at hx; simp at hx
  unfold goJoin
  rw [if_neg ha, if_neg hxne, if_pos hx]

theorem goJoin_of_head_ne (a x : List Char) (ha : a ≠ []) (hxne : x ≠ [])
    (hx : x.head? ≠ some pathSep) : goJoin a x = a ++ pathSep :: x := by
  unfold goJoin
  rw [if_neg ha, if_neg hxne, if_neg hx]

theorem goJoin_under (a x : List Char) (ha : a ≠ []) (hxne : x ≠ []) :
    ∃ rest, goJoin a x = a ++ pathSep :: rest := by
  by_cases hx : x.head? = some pathSep
  · cases x with
    | nil => exact absurd rfl hxne
    | cons c xs =>
      simp only [List.head?_cons, Option.some.injEq] at hx
      subst hx
      exact ⟨xs, goJoin_of_head_sep a (pathSep :: xs) ha rfl⟩
  · exact ⟨x, goJoin_of_head_ne a x ha hxne hx⟩

theorem head_ne_sep (b : List Char) (hb : pathSep ∉ b) (hbne : b ≠ []) :
    b.head? ≠ some pathSep := by
  cases b with
  | nil => exact absurd rfl hbne
  | cons c bs =>
    simp only [List.head?_cons, ne_eq, Option.some.injEq]
    intro h
    exact hb (by rw [← h]; exact List.mem_cons_self c bs)

theorem head_append_ne_sep (b : List Char) (hb : pathSep ∉ b) :
    (b ++ bakSuffix).head? ≠ some pathSep := by
  cases b with
  | nil => decide
  | cons c bs =>
    simp only [List.cons_append, List.head?_cons, ne_eq, Option.some.injEq]
    intro h
    exact hb (by rw [← h]; exact List.mem_cons_self c bs)

/-- C6 counterexample: with working directory `/home/u`, the file
`/home/u2/f.md` lies outside the working directory, so the
specification rule flattens its absolute path; but the code tests the
working directory as a string prefix of the parent directory, which
`/home/u2` passes, so the code instead produces a root-relative backup
path.  The two derivations disagree at this input. -/
theorem claim_C6_counterexample :
    prepareBackupPath "/home/u".toList "/home/u2/f.md".toList "/b".toList ≠
      specBackupPath "/home/u".toList "/home/u2/f.md".toList "/b".toList := by
  decide

/-- C6 amended: write the file as `d ++ sep :: b` with absolute clean
parent `d` and separator-free nonempty name `b`.  The inside test of
the code is a string-prefix test on the parent directory, so the
derivation has three branches covering every input, the
sibling-directory anomaly included: parent equal to the working
directory gives the backup root joined with the base name plus `.bak`;
a parent merely having the working directory as a string prefix (which
wrongly includes siblings such as `/home/u2` under `/home/u`) gives the
backup root joined with the remainder after that prefix, joined with
the base name, plus `.bak`; otherwise the flattened absolute path plus
`.bak`.  Whenever the string-prefix test agrees with the resides-under
relation of the specification (no sibling-prefix anomaly at this
input), this coincides with the rule as the specification words it.
Unconditionally, anomaly or not, the derived path lies syntactically
under the backup root. -/
theorem claim_C6 (wd d b bd : List Char)
    (hd : d.head? = some pathSep) (hb : pathSep ∉ b) (hbne : b ≠ [])
    (hbd : bd ≠ []) :
    (d = wd →
      prepareBackupPath wd (d ++ pathSep :: b) bd =
        goJoin bd (b ++ bakSuffix)) ∧
    (d ≠ wd → wd.isPrefixOf d = true →
      prepareBackupPath wd (d ++ pathSep :: b) bd =
        goJoin bd (goJoin (d.drop (wd.length + 1)) b ++ bakSuffix)) ∧
    (d ≠ wd → wd.isPrefixOf d = false →
      prepareBackupPath wd (d ++ pathSep :: b) bd =
        goJoin bd (flattenOutside (d ++ pathSep :: b) ++ bakSuffix)) ∧
    ((wd.isPrefixOf d = true →
        d = wd ∨ (wd ++ [pathSep]).isPrefixOf d = true) →
      prepareBackupPath wd (d ++ pathSep :: b) bd =
        specBackupPath wd (d ++ pathSep :: b) bd) ∧
    (∃ rest, prepareBackupPath wd (d ++ pathSep :: b) bd =
      bd ++ pathSep :: rest) := by
  have hdne : d ≠ [] := by intro h; rw [h] at hd; simp at hd
  have hpabs : (d ++ pathSep :: b).head? = some pathSep := by
    cases d with
    | nil => exact absurd rfl hdne
    | cons c d' => simpa using (by simpa using hd)
  have habs : goAbs wd (d ++ pathSep :: b) = d ++ pathSep :: b := by
    unfold goAbs
    rw [if_pos hpabs]
  have hdir : dirOf (d ++ pathSep :: b) = d := dirOf_append d b hdne hb
  have hbase : baseOf (d ++ pathSep :: b) = b := baseOf_append d b hb
  have hbakne : ∀ x : List Char, x ++ bakSuffix ≠ [] := by
    intro x h
    have := congrArg List.length h
    simp [bakSuffix] at this
  have hchar : prepareBackupPath wd (d ++ pathSep :: b) bd =
      goJoin bd ((if d = wd then b
        else if wd.isPrefixOf d = true then
          goJoin (d.drop (wd.length + 1)) b
        else flattenOutside (d ++ pathSep :: b)) ++ bakSuffix) := by
    unfold prepareBackupPath
    dsimp only
    rw [habs, hdir, hbase]
  have hspec : specBackupPath wd (d ++ pathSep :: b) bd =
      goJoin bd ((if d = wd ∨ (wd ++ [pathSep]).isPrefixOf d = true then
          (d ++ pathSep :: b).drop (wd.length + 1)
        else flattenOutside (d ++ pathSep :: b)) ++ bakSuffix) := by
    unfold specBackupPath
    dsimp only
    rw [habs, hdir]
  refine ⟨?_, ?_, ?_, ?_, ?_⟩
  · intro h1
    rw [hchar, if_pos h1]
  · intro h1 h2
    rw [hchar, if_neg h1, if_pos h2]
  · intro h1 h2
    rw [hchar, if_neg h1, if_neg (by simp [h2])]
  · intro hnoanom
    rw [hchar, hspec]
    by_cases hcase1 : d = wd
    · subst hcase1
      rw [if_pos rfl, if_pos (Or.inl rfl), drop_after_sep]
    · rw [if_neg hcase1]
      by_cases hcase2 : wd.isPrefixOf d = true
      · rcases hnoanom hcase2 with h | h
        · exact absurd h hcase1
        · have hpre : wd ++ [pathSep] <+: d := List.isPrefixOf_iff_prefix.mp h
          obtain ⟨r, hr⟩ := hpre
          rw [if_pos hcase2, if_pos (Or.inr h)]
          rw [← hr]
          rw [show (wd ++ [pathSep]) ++ r = wd ++ pathSep :: r by simp,
            drop_after_sep]
          rw [show (wd ++ pathSep :: r) ++ pathSep :: b =
            wd ++ pathSep :: (r ++ pathSep :: b) by simp, drop_after_sep]
          cases r with
          | nil =>
            rw [goJoin_nil_left]
            rw [goJoin_of_head_ne bd (b ++ bakSuffix) hbd (hbakne b)
              (head_append_ne_sep b hb)]
            rw [goJoin_of_head_sep bd (([] ++ pathSep :: b) ++ bakSuffix) hbd
              (by simp)]
            simp
          | cons c r2 =>
            rw [goJoin_of_head_ne (c :: r2) b (by simp) hbne
              (head_ne_sep b hb hbne)]
      · have hnp : ¬ (wd ++ [pathSep]).isPrefixOf d = true := by
          intro hcon
          apply hcase2
          apply List.isPrefixOf_iff_prefix.mpr
          exact List.IsPrefix.trans (List.prefix_append wd [pathSep])
            (List.isPrefixOf_iff_prefix.mp hcon)
        rw [if_neg hcase2, if_neg (fun hcon => hcon.elim hcase1 hnp)]
  · rw [hchar]
    exact goJoin_under bd _ hbd (hbakne _)

/-- Witness for C6 at the anomalous sibling-prefix input itself: with
working directory `/home/u` the parent `/home/u2` passes the
string-prefix test, and the backup path is the backup root joined with
the remainder after the prefix joined with the base name. -/
theorem claim_C6_witness :
    prepareBackupPath "/home/u".toList
        ("/home/u2".toList ++ pathSep :: "f.md".toList) "/b".toList =
      goJoin "/b".toList
        (goJoin ("/home/u2".toList.drop ("/home/u".toList.length + 1))
          "f.md".toList ++ bakSuffix) := by
  exact (claim_C6 "/home/u".toList "/home/u2".toList "f.md".toList "/b".toList
    (by decide) (by decide) (by decide) (by decide)).2.1
    (by decide) (by decide)

/-- Witness for C10 at a text file argument and at an empty directory. -/
theorem claim_C10_witness :
    fullMain [] [] false (fun _ => true) (fun _ => true)
        (fun _ _ => Except.ok []) (fun _ _ => 0) (fun _ => true)
        (fun _ => none) (MainTarget.file ['a', '.', 't', 'x', 't']) =
      (0, (fun _ => none : FsMap), [], []) := by
  exact (claim_C10 [] [] false (fun _ => true) (fun _ => true)
    (fun _ _ => Except.ok []) (fun _ _ => 0) (fun _ => true)
    (fun _ => none)).1 ['a', '.', 't', 'x', 't'] (by decide)

